import Mathlib

/-!
# Verification of the safe-nd identity subsystem

Shallow embedding of `src/identity/mod.rs` (the `PublicId` enum, its
`name()` dispatch, the z-base-32 codec entry points) together with the
parts of the crate that the module references but that are defined in its
submodules (`client`, `node`, `app`, `utils`), modelled from the design
specification.

Bytes are `Nat` values below 256; byte strings are `List Nat`.
-/

namespace SafeNd

/-! ## Bit-level foundation for the z-base-32 codec -/

/-- Interpret a list of bits (most significant first) as a natural number. -/
def bitsToNat (bits : List Bool) : Nat :=
  bits.foldl (fun acc b => 2 * acc + (if b then 1 else 0)) 0

/-- The `w` low bits of `n`, most significant first. -/
def natToBits : Nat → Nat → List Bool
  | 0, _ => []
  | w + 1, n => natToBits w (n / 2) ++ [n % 2 == 1]

theorem natToBits_length (w n : Nat) : (natToBits w n).length = w := by
  induction w generalizing n with
  | zero => rfl
  | succ k ih => simp [natToBits, ih]

theorem bitsToNat_append_singleton (l : List Bool) (b : Bool) :
    bitsToNat (l ++ [b]) = 2 * bitsToNat l + (if b then 1 else 0) := by
  simp [bitsToNat, List.foldl_append]

theorem bitsToNat_lt (l : List Bool) : bitsToNat l < 2 ^ l.length := by
  induction l using List.reverseRecOn with
  | nil => simp [bitsToNat]
  | append_singleton l b ih =>
    rw [bitsToNat_append_singleton]
    simp only [List.length_append, List.length_singleton, pow_succ]
    split <;> omega

theorem natToBits_bitsToNat (l : List Bool) :
    natToBits l.length (bitsToNat l) = l := by
  induction l using List.reverseRecOn with
  | nil => rfl
  | append_singleton l b ih =>
    rw [bitsToNat_append_singleton]
    simp only [List.length_append, List.length_singleton, natToBits]
    have h2 : (2 * bitsToNat l + (if b then 1 else 0)) / 2 = bitsToNat l := by
      split <;> omega
    have h3 : ((2 * bitsToNat l + (if b then 1 else 0)) % 2 == 1) = b := by
      cases b <;> simp <;> omega
    rw [h2, h3, ih]

theorem bitsToNat_natToBits (w n : Nat) (h : n < 2 ^ w) :
    bitsToNat (natToBits w n) = n := by
  induction w generalizing n with
  | zero =>
    simp only [pow_zero, Nat.lt_one_iff] at h
    simp [natToBits, bitsToNat, h]
  | succ k ih =>
    have hd : n / 2 < 2 ^ k := by
      rw [pow_succ] at h; omega
    simp only [natToBits, bitsToNat_append_singleton, ih (n / 2) hd]
    have := Nat.div_add_mod n 2
    by_cases hm : n % 2 = 1 <;> simp [hm] <;> omega

/-- Expand each byte to its eight bits, most significant first. -/
def bytesToBits : List Nat → List Bool
  | [] => []
  | b :: rest => natToBits 8 b ++ bytesToBits rest

theorem bytesToBits_length (bs : List Nat) :
    (bytesToBits bs).length = 8 * bs.length := by
  induction bs with
  | nil => rfl
  | cons b rest ih => simp [bytesToBits, natToBits_length, ih]; ring

/-- Group bits back into bytes, dropping any trailing group of fewer than
eight bits (those are base-32 padding bits). -/
def bitsToBytes : List Bool → List Nat
  | b7 :: b6 :: b5 :: b4 :: b3 :: b2 :: b1 :: b0 :: rest =>
      bitsToNat [b7, b6, b5, b4, b3, b2, b1, b0] :: bitsToBytes rest
  | _ => []

theorem bitsToBytes_append_eight (l : List Bool) (h : l.length = 8)
    (rest : List Bool) :
    bitsToBytes (l ++ rest) = bitsToNat l :: bitsToBytes rest := by
  rcases l with _ | ⟨a, l⟩; · simp at h
  rcases l with _ | ⟨b, l⟩; · simp at h
  rcases l with _ | ⟨c, l⟩; · simp at h
  rcases l with _ | ⟨d, l⟩; · simp at h
  rcases l with _ | ⟨e, l⟩; · simp at h
  rcases l with _ | ⟨f, l⟩; · simp at h
  rcases l with _ | ⟨g, l⟩; · simp at h
  rcases l with _ | ⟨i, l⟩; · simp at h
  rcases l with _ | ⟨j, l⟩
  · rfl
  · simp at h

theorem bitsToBytes_bytesToBits_append (bs : List Nat) (rest : List Bool)
    (h : ∀ b ∈ bs, b < 256) :
    bitsToBytes (bytesToBits bs ++ rest) = bs ++ bitsToBytes rest := by
  induction bs with
  | nil => rfl
  | cons b tail ih =>
    have hb : b < 256 := h b (by simp)
    simp only [bytesToBits, List.append_assoc, List.cons_append]
    rw [bitsToBytes_append_eight (natToBits 8 b) (natToBits_length 8 b),
      bitsToNat_natToBits 8 b hb, ih (fun x hx => h x (by simp [hx]))]

theorem bitsToBytes_short (l : List Bool) (h : l.length < 8) :
    bitsToBytes l = [] := by
  rcases l with _ | ⟨a, l⟩; · rfl
  rcases l with _ | ⟨b, l⟩; · rfl
  rcases l with _ | ⟨c, l⟩; · rfl
  rcases l with _ | ⟨d, l⟩; · rfl
  rcases l with _ | ⟨e, l⟩; · rfl
  rcases l with _ | ⟨f, l⟩; · rfl
  rcases l with _ | ⟨g, l⟩; · rfl
  rcases l with _ | ⟨i, l⟩; · rfl
  simp only [List.length_cons] at h
  omega

/-- Split a bit stream into 5-bit groups, zero-padding the final group;
each group is returned as its numeric value (< 32). -/
def bitsToChunks5 : List Bool → List Nat
  | [] => []
  | [a] => [bitsToNat [a, false, false, false, false]]
  | [a, b] => [bitsToNat [a, b, false, false, false]]
  | [a, b, c] => [bitsToNat [a, b, c, false, false]]
  | [a, b, c, d] => [bitsToNat [a, b, c, d, false]]
  | a :: b :: c :: d :: e :: rest => bitsToNat [a, b, c, d, e] :: bitsToChunks5 rest

/-- Re-expand a list of 5-bit values into the bit stream. -/
def valsToBits : List Nat → List Bool
  | [] => []
  | v :: rest => natToBits 5 v ++ valsToBits rest

theorem valsToBits_length (vs : List Nat) :
    (valsToBits vs).length = 5 * vs.length := by
  induction vs with
  | nil => rfl
  | cons v rest ih => simp [valsToBits, natToBits_length, ih]; ring

theorem bitsToChunks5_lt (bits : List Bool) :
    ∀ v ∈ bitsToChunks5 bits, v < 32 := by
  induction bits using bitsToChunks5.induct with
  | case1 => simp [bitsToChunks5]
  | case2 a =>
    simp only [bitsToChunks5, List.mem_singleton, forall_eq]
    exact bitsToNat_lt [a, false, false, false, false]
  | case3 a b =>
    simp only [bitsToChunks5, List.mem_singleton, forall_eq]
    exact bitsToNat_lt [a, b, false, false, false]
  | case4 a b c =>
    simp only [bitsToChunks5, List.mem_singleton, forall_eq]
    exact bitsToNat_lt [a, b, c, false, false]
  | case5 a b c d =>
    simp only [bitsToChunks5, List.mem_singleton, forall_eq]
    exact bitsToNat_lt [a, b, c, d, false]
  | case6 a b c d e rest ih =>
    simp only [bitsToChunks5, List.mem_cons]
    rintro v (rfl | hv)
    · exact bitsToNat_lt [a, b, c, d, e]
    · exact ih v hv

theorem valsToBits_bitsToChunks5 (bits : List Bool) :
    valsToBits (bitsToChunks5 bits) =
      bits ++ List.replicate ((5 - bits.length % 5) % 5) false := by
  induction bits using bitsToChunks5.induct with
  | case1 => rfl
  | case2 a =>
    simp only [bitsToChunks5, valsToBits]
    rw [show natToBits 5 (bitsToNat [a, false, false, false, false]) =
        natToBits ([a, false, false, false, false] : List Bool).length
          (bitsToNat [a, false, false, false, false]) by rfl,
      natToBits_bitsToNat]
    rfl
  | case3 a b =>
    simp only [bitsToChunks5, valsToBits]
    rw [show natToBits 5 (bitsToNat [a, b, false, false, false]) =
        natToBits ([a, b, false, false, false] : List Bool).length
          (bitsToNat [a, b, false, false, false]) by rfl,
      natToBits_bitsToNat]
    rfl
  | case4 a b c =>
    simp only [bitsToChunks5, valsToBits]
    rw [show natToBits 5 (bitsToNat [a, b, c, false, false]) =
        natToBits ([a, b, c, false, false] : List Bool).length
          (bitsToNat [a, b, c, false, false]) by rfl,
      natToBits_bitsToNat]
    rfl
  | case5 a b c d =>
    simp only [bitsToChunks5, valsToBits]
    rw [show natToBits 5 (bitsToNat [a, b, c, d, false]) =
        natToBits ([a, b, c, d, false] : List Bool).length
          (bitsToNat [a, b, c, d, false]) by rfl,
      natToBits_bitsToNat]
    rfl
  | case6 a b c d e rest ih =>
    simp only [bitsToChunks5, valsToBits]
    rw [show natToBits 5 (bitsToNat [a, b, c, d, e]) =
        natToBits ([a, b, c, d, e] : List Bool).length
          (bitsToNat [a, b, c, d, e]) by rfl,
      natToBits_bitsToNat, ih]
    have : (a :: b :: c :: d :: e :: rest).length % 5 = rest.length % 5 := by
      simp [List.length_cons]
      omega
    rw [this]
    simp

/-! ## z-base-32 alphabet -/

/-- Modelled from the spec: the typo-resistant base-32 alphabet used by the
`utils::encode`/`utils::decode` helpers (z-base-32, the alphabet of the
`multibase` crate's `Base32z`), chosen to avoid visually confusable
characters. -/
def zbase32Chars : List Char :=
  ['y', 'b', 'n', 'd', 'r', 'f', 'g', '8', 'e', 'j', 'k', 'm', 'c', 'p',
   'q', 'x', 'o', 't', '1', 'u', 'w', 'i', 's', 'z', 'a', '3', '4', '5',
   'h', '7', '6', '9']

/-- The digit character for a 5-bit value. -/
def valToChar (v : Nat) : Char := zbase32Chars.getD v 'y'

/-- The 5-bit value of a digit character; `none` when the character is
outside the alphabet. -/
def charToVal (c : Char) : Option Nat := zbase32Chars.findIdx? (· == c)

theorem charToVal_valToChar (v : Nat) (h : v < 32) :
    charToVal (valToChar v) = some v := by
  interval_cases v <;> rfl

/-! ## z-base-32 encoding and decoding of byte strings -/

/-- Modelled from the spec: encode a byte string in z-base-32 — expand the
bytes to bits, group into 5-bit values (zero-padding the tail), and map
each value to its alphabet character. -/
def zbEncodeBytes (bs : List Nat) : List Char :=
  (bitsToChunks5 (bytesToBits bs)).map valToChar

/-- Look up every character of the text in the alphabet; `none` as soon as
one character falls outside it. -/
def decodeVals : List Char → Option (List Nat)
  | [] => some []
  | c :: rest =>
    match charToVal c with
    | none => none
    | some v =>
      match decodeVals rest with
      | none => none
      | some vs => some (v :: vs)

/-- Modelled from the spec: decode a z-base-32 text to bytes. Fails when a
character is outside the alphabet or when the length leaves five or more
trailing bits (a length no byte string encodes to). -/
def zbDecodeChars (cs : List Char) : Option (List Nat) :=
  (decodeVals cs).bind fun vals =>
    if cs.length * 5 % 8 < 5 then some (bitsToBytes (valsToBits vals)) else none

theorem decodeVals_map_valToChar (vs : List Nat) (h : ∀ v ∈ vs, v < 32) :
    decodeVals (vs.map valToChar) = some vs := by
  induction vs with
  | nil => rfl
  | cons v rest ih =>
    simp only [List.map_cons, decodeVals]
    rw [charToVal_valToChar v (h v (by simp)), ih (fun x hx => h x (by simp [hx]))]

/-- The z-base-32 round trip at byte level: decoding an encoding recovers
the bytes exactly. -/
theorem zbDecode_zbEncode (bs : List Nat) (h : ∀ b ∈ bs, b < 256) :
    zbDecodeChars (zbEncodeBytes bs) = some bs := by
  unfold zbEncodeBytes zbDecodeChars
  rw [decodeVals_map_valToChar _ (bitsToChunks5_lt _)]
  have hbits := valsToBits_bitsToChunks5 (bytesToBits bs)
  have hbl : (bytesToBits bs).length = 8 * bs.length := bytesToBits_length bs
  have hv : (bytesToBits bs).length + (5 - (bytesToBits bs).length % 5) % 5 =
      5 * (bitsToChunks5 (bytesToBits bs)).length := by
    have hx := valsToBits_length (bitsToChunks5 (bytesToBits bs))
    rw [hbits] at hx
    simp only [List.length_append, List.length_replicate] at hx
    omega
  have hcond : ((bitsToChunks5 (bytesToBits bs)).map valToChar).length * 5 % 8 < 5 := by
    simp only [List.length_map]
    have hpe : (bitsToChunks5 (bytesToBits bs)).length * 5 =
        (5 - (bytesToBits bs).length % 5) % 5 + 8 * bs.length := by omega
    rw [hpe, Nat.add_mul_mod_self_left, Nat.mod_eq_of_lt (by omega)]
    omega
  rw [Option.some_bind, if_pos hcond, hbits, bitsToBytes_bytesToBits_append bs _ h,
    bitsToBytes_short _ (by simp only [List.length_replicate]; omega)]
  simp

/-! ## Addresses and key material

`XorName` (the network address) is a fixed-size byte string. The address
derivation and the BLS public-share derivation are primitives of external
crates; they are modelled as deterministic placeholder functions on the
serialized key bytes. -/

/-- A network address: byte string of the address's bytes. -/
abbrev XorName := List Nat

/-- Modelled from the spec: `derive_address` — a deterministic function
from the serialized public key bytes to a fixed-size address, stable
bit-for-bit for equal key bytes. The concrete one-way map is an external
crypto primitive; it is modelled as the identity on the 32 serialised key
bytes, which is deterministic and collision-free. -/
def derive_address (publicKeyBytes : List Nat) : XorName := publicKeyBytes

/-- Modelled from the spec: derivation of the BLS public key share from a
secret share (`install_threshold_share` "binds a secret share and derives
its corresponding public share"); an external crypto primitive, modelled
as a deterministic placeholder on the serialized share bytes. -/
def blsPublicKeyShare (secretShareBytes : List Nat) : List Nat :=
  secretShareBytes

/-! ## The identity variants

`client::PublicId`, `node::PublicId` and `app::PublicId` live in the
crate's `client`, `node` and `app` submodules; they are modelled from the
spec's data model (§3): a Client holds a single public signing key, a Node
holds a single public signing key plus an optional installed BLS public
key share and group public key, and an App holds its own public signing
key plus the owning Client's public identity. Keys are represented by
their serialized bytes (Ed25519 public keys: 32 bytes; BLS keys: 48
bytes). -/

namespace client

/-- Modelled from the spec: the public identity of a network Client. -/
structure PublicId where
  public_key : List Nat
deriving DecidableEq, Repr

/-- A Client's network address: derived from its public key. -/
def PublicId.name (c : PublicId) : XorName := derive_address c.public_key

end client

namespace node

/-- Modelled from the spec: the public identity of a network Node. The
optional component is the installed BLS public key share together with
the group's public key. -/
structure PublicId where
  public_key : List Nat
  bls_keys : Option (List Nat × List Nat)
deriving DecidableEq, Repr

/-- A Node's network address: derived from its single public key only. -/
def PublicId.name (n : PublicId) : XorName := derive_address n.public_key

end node

namespace app

/-- Modelled from the spec: the public identity of a network App — its own
public signing key plus the owning Client's public identity. -/
structure PublicId where
  public_key : List Nat
  owner : client.PublicId
deriving DecidableEq, Repr

/-- The owning Client's network address. -/
def PublicId.owner_name (a : PublicId) : XorName := a.owner.name

end app

/-- The enum of `src/identity/mod.rs`: the identity of a network Node,
Client or App (variants in the source's declaration order). -/
inductive PublicId where
  | Node (pub_id : node.PublicId)
  | Client (pub_id : client.PublicId)
  | App (pub_id : app.PublicId)
deriving DecidableEq, Repr

/-- `PublicId::name` of `src/identity/mod.rs`: the entity's network
address, dispatching to the variant (an App reports its owner's name). -/
def PublicId.name : PublicId → XorName
  | .Node pub_id => pub_id.name
  | .Client pub_id => pub_id.name
  | .App pub_id => pub_id.owner_name

/-! ## Canonical serialisation

Modelled from the spec: the canonical byte form preserves the variant
discriminant (one leading tag byte, in declaration order), then the
variant's key material; for an App also the owner's key bytes. -/

/-- Canonical bytes of a Client identity body: its 32 key bytes. -/
def serialiseClientBody (c : client.PublicId) : List Nat := c.public_key

/-- Canonical bytes of a Node identity body: its 32 key bytes, then a
presence flag for the BLS component, then (when present) the 48-byte
public key share and the 48-byte group public key. -/
def serialiseNodeBody (n : node.PublicId) : List Nat :=
  n.public_key ++
    (match n.bls_keys with
     | none => [0]
     | some (share, group) => 1 :: (share ++ group))

/-- Canonical bytes of an App identity body: its own 32 key bytes, then
the owner's 32 key bytes. -/
def serialiseAppBody (a : app.PublicId) : List Nat :=
  a.public_key ++ a.owner.public_key

/-- Modelled from the spec: `utils::encode`'s serialisation step — the
canonical byte form of a `PublicId`, tag byte first. -/
def serialisePublicId : PublicId → List Nat
  | .Node n => 0 :: serialiseNodeBody n
  | .Client c => 1 :: serialiseClientBody c
  | .App a => 2 :: serialiseAppBody a

/-- Parse a Node identity body. -/
def parseNodeBody (rest : List Nat) : Option node.PublicId :=
  if rest.length < 33 then none
  else
    match rest.drop 32 with
    | [0] => some ⟨rest.take 32, none⟩
    | 1 :: more =>
      if more.length = 96 then
        some ⟨rest.take 32, some (more.take 48, more.drop 48)⟩
      else none
    | _ => none

/-- Parse a Client identity body. -/
def parseClientBody (rest : List Nat) : Option client.PublicId :=
  if rest.length = 32 then some ⟨rest⟩ else none

/-- Parse an App identity body. -/
def parseAppBody (rest : List Nat) : Option app.PublicId :=
  if rest.length = 64 then some ⟨rest.take 32, ⟨rest.drop 32⟩⟩ else none

/-- Modelled from the spec: `utils::decode`'s deserialisation step — read
the canonical byte form back; `none` when the byte layout is not a
well-formed identity. -/
def deserialisePublicId (bytes : List Nat) : Option PublicId :=
  match bytes with
  | 0 :: rest => (parseNodeBody rest).map PublicId.Node
  | 1 :: rest => (parseClientBody rest).map PublicId.Client
  | 2 :: rest => (parseAppBody rest).map PublicId.App
  | _ => none

/-! ## Well-formed identities

Key material as it occurs in the crate: Ed25519 public keys are 32 bytes,
BLS public keys and public key shares are 48 bytes, every byte below 256. -/

/-- A well-formed serialized key of `n` bytes. -/
def wfKey (k : List Nat) (n : Nat) : Prop :=
  k.length = n ∧ ∀ b ∈ k, b < 256

instance (k : List Nat) (n : Nat) : Decidable (wfKey k n) :=
  inferInstanceAs (Decidable (_ ∧ _))

/-- Well-formed optional BLS component of a Node identity. -/
def wfBls : Option (List Nat × List Nat) → Prop
  | none => True
  | some (share, group) => wfKey share 48 ∧ wfKey group 48

instance (o : Option (List Nat × List Nat)) : Decidable (wfBls o) :=
  match o with
  | none => isTrue trivial
  | some (_, _) => inferInstanceAs (Decidable (_ ∧ _))

/-- Well-formed Client identity. -/
def wfClient (c : client.PublicId) : Prop := wfKey c.public_key 32

instance (c : client.PublicId) : Decidable (wfClient c) :=
  inferInstanceAs (Decidable (wfKey _ _))

/-- Well-formed Node identity. -/
def wfNode (n : node.PublicId) : Prop :=
  wfKey n.public_key 32 ∧ wfBls n.bls_keys

instance (n : node.PublicId) : Decidable (wfNode n) :=
  inferInstanceAs (Decidable (_ ∧ _))

/-- Well-formed App identity. -/
def wfApp (a : app.PublicId) : Prop :=
  wfKey a.public_key 32 ∧ wfClient a.owner

instance (a : app.PublicId) : Decidable (wfApp a) :=
  inferInstanceAs (Decidable (_ ∧ _))

/-- Well-formed identity of any variant. -/
def wfPublicId : PublicId → Prop
  | .Node n => wfNode n
  | .Client c => wfClient c
  | .App a => wfApp a

instance : (p : PublicId) → Decidable (wfPublicId p)
  | .Node n => inferInstanceAs (Decidable (wfNode n))
  | .Client c => inferInstanceAs (Decidable (wfClient c))
  | .App a => inferInstanceAs (Decidable (wfApp a))

/-! ## Serialisation round trip -/

theorem take_length_append {α : Type} (l₁ l₂ : List α) (n : Nat)
    (h : l₁.length = n) : (l₁ ++ l₂).take n = l₁ := by
  subst h
  exact List.take_left l₁ l₂

theorem drop_length_append {α : Type} (l₁ l₂ : List α) (n : Nat)
    (h : l₁.length = n) : (l₁ ++ l₂).drop n = l₂ := by
  subst h
  exact List.drop_left l₁ l₂

theorem deserialise_serialise (p : PublicId) (h : wfPublicId p) :
    deserialisePublicId (serialisePublicId p) = some p := by
  cases p with
  | Node n =>
    obtain ⟨npk, nbls⟩ := n
    obtain ⟨⟨hlen, _⟩, hbls⟩ := h
    cases nbls with
    | none =>
      simp only [serialisePublicId, serialiseNodeBody, deserialisePublicId,
        parseNodeBody]
      rw [if_neg (by simp [hlen]), drop_length_append _ _ 32 hlen,
        take_length_append _ _ 32 hlen]
      rfl
    | some sg =>
      obtain ⟨share, group⟩ := sg
      simp only [wfBls] at hbls
      obtain ⟨⟨hs, _⟩, ⟨hg, _⟩⟩ := hbls
      simp only [serialisePublicId, serialiseNodeBody, deserialisePublicId,
        parseNodeBody]
      rw [if_neg (by simp [hlen]; omega), drop_length_append _ _ 32 hlen,
        take_length_append _ _ 32 hlen]
      simp [take_length_append _ _ 48 hs, drop_length_append _ _ 48 hs, hs, hg]
  | Client c =>
    obtain ⟨hlen, _⟩ := h
    simp only [serialisePublicId, serialiseClientBody, deserialisePublicId,
      parseClientBody]
    rw [if_pos hlen]
    rfl
  | App a =>
    obtain ⟨⟨hlen, _⟩, ⟨holen, _⟩⟩ := h
    simp only [serialisePublicId, serialiseAppBody, deserialisePublicId,
      parseAppBody]
    rw [if_pos (by simp [hlen, holen]), take_length_append _ _ 32 hlen,
      drop_length_append _ _ 32 hlen]
    rfl

theorem serialise_bytes_lt (p : PublicId) (h : wfPublicId p) :
    ∀ b ∈ serialisePublicId p, b < 256 := by
  cases p with
  | Node n =>
    obtain ⟨⟨_, hk⟩, hbls⟩ := h
    cases hb : n.bls_keys with
    | none =>
      simp only [serialisePublicId, serialiseNodeBody, hb, List.mem_cons,
        List.mem_append, List.mem_singleton, List.not_mem_nil, or_false]
      rintro b (rfl | hb' | rfl)
      · omega
      · exact hk b hb'
      · omega
    | some sg =>
      obtain ⟨share, group⟩ := sg
      rw [hb] at hbls
      obtain ⟨⟨_, hs⟩, ⟨_, hg⟩⟩ := hbls
      simp only [serialisePublicId, serialiseNodeBody, hb, List.mem_cons,
        List.mem_append]
      rintro b (rfl | hb' | rfl | hb' | hb')
      · omega
      · exact hk b hb'
      · omega
      · exact hs b hb'
      · exact hg b hb'
  | Client c =>
    obtain ⟨_, hk⟩ := h
    simp only [serialisePublicId, serialiseClientBody, List.mem_cons]
    rintro b (rfl | hb')
    · omega
    · exact hk b hb'
  | App a =>
    obtain ⟨⟨_, hk⟩, ⟨_, ho⟩⟩ := h
    simp only [serialisePublicId, serialiseAppBody, List.mem_cons, List.mem_append]
    rintro b (rfl | hb' | hb')
    · omega
    · exact hk b hb'
    · exact ho b hb'

/-! ## The error taxonomy and the codec entry points

Modelled from the spec (§7): typed failures returned to the caller. The
source file's tests observe them through `Error::FailedToParse`. -/

/-- The failure taxonomy of the identity subsystem. -/
inductive Error where
  /-- Text is not valid base-32 under the alphabet, or its length fits no
  valid payload. -/
  | InvalidEncoding
  /-- Decoded bytes are not a well-formed canonical identity. -/
  | Malformed
  /-- Bytes are well-formed but encode a different concrete variant than
  the caller expected. -/
  | VariantMismatch
  /-- A threshold key share is already installed on the Node identity. -/
  | CapabilityAlreadyInstalled
deriving DecidableEq, Repr

/-- `PublicId::encode_to_zbase32` of `src/identity/mod.rs`: the identity
serialised and encoded in z-base-32. -/
def PublicId.encode_to_zbase32 (p : PublicId) : String :=
  String.mk (zbEncodeBytes (serialisePublicId p))

/-- `PublicId::decode_from_zbase32` of `src/identity/mod.rs`: decode the
text to bytes, then the bytes to whichever identity variant they encode. -/
def PublicId.decode_from_zbase32 (encoded : String) : Except Error PublicId :=
  match zbDecodeChars encoded.data with
  | none => .error .InvalidEncoding
  | some bytes =>
    match deserialisePublicId bytes with
    | none => .error .Malformed
    | some p => .ok p

namespace client

/-- Modelled from the spec: a Client identity's text encoding (the
canonical bytes of the `Client` variant, in z-base-32). -/
def PublicId.encode_to_zbase32 (c : PublicId) : String :=
  (SafeNd.PublicId.Client c).encode_to_zbase32

/-- Modelled from the spec: decode expecting a Client — decode the text,
then require the `Client` variant, failing with `VariantMismatch` on any
other well-formed variant. -/
def PublicId.decode_from_zbase32 (encoded : String) : Except Error PublicId :=
  match SafeNd.PublicId.decode_from_zbase32 encoded with
  | .ok (.Client c) => .ok c
  | .ok _ => .error .VariantMismatch
  | .error e => .error e

end client

namespace node

/-- Modelled from the spec: a Node identity's text encoding. -/
def PublicId.encode_to_zbase32 (n : PublicId) : String :=
  (SafeNd.PublicId.Node n).encode_to_zbase32

/-- Modelled from the spec: decode expecting a Node. -/
def PublicId.decode_from_zbase32 (encoded : String) : Except Error PublicId :=
  match SafeNd.PublicId.decode_from_zbase32 encoded with
  | .ok (.Node n) => .ok n
  | .ok _ => .error .VariantMismatch
  | .error e => .error e

end node

namespace app

/-- Modelled from the spec: an App identity's text encoding. -/
def PublicId.encode_to_zbase32 (a : PublicId) : String :=
  (SafeNd.PublicId.App a).encode_to_zbase32

/-- Modelled from the spec: decode expecting an App. -/
def PublicId.decode_from_zbase32 (encoded : String) : Except Error PublicId :=
  match SafeNd.PublicId.decode_from_zbase32 encoded with
  | .ok (.App a) => .ok a
  | .ok _ => .error .VariantMismatch
  | .error e => .error e

end app

/-- The composite round trip at enum level. -/
theorem decode_encode_enum (p : PublicId) (h : wfPublicId p) :
    PublicId.decode_from_zbase32 p.encode_to_zbase32 = .ok p := by
  unfold PublicId.decode_from_zbase32 PublicId.encode_to_zbase32
  rw [show (String.mk (zbEncodeBytes (serialisePublicId p))).data =
      zbEncodeBytes (serialisePublicId p) from rfl,
    zbDecode_zbEncode _ (serialise_bytes_lt p h)]
  simp [deserialise_serialise p h]

/-! ## Node full identity and capability attachment -/

namespace node

/-- Modelled from the spec: `node::FullId` — the secret-bearing
counterpart of a Node's `PublicId`: its single-scheme secret key, the
optional installed BLS secret key share, and the projected public
identity. -/
structure FullId where
  secret_key : List Nat
  bls_secret_share : Option (List Nat)
  pub : PublicId
deriving DecidableEq, Repr

/-- `FullId::public_id`: project the full identity to its public part. -/
def FullId.public_id (f : FullId) : PublicId := f.pub

/-- Modelled from the spec: `node::FullId::set_bls_keys`
(`install_threshold_share`) — bind a threshold secret key share, derive
its public share, and record it with the group public key; fails with
`CapabilityAlreadyInstalled` when a share is already installed, rather
than silently discarding the prior signing capability. -/
def FullId.set_bls_keys (f : FullId) (secret_share : List Nat)
    (group_key : List Nat) : Except Error FullId :=
  match f.pub.bls_keys with
  | some _ => .error .CapabilityAlreadyInstalled
  | none =>
    .ok { f with
          bls_secret_share := some secret_share,
          pub := { f.pub with
                   bls_keys := some (blsPublicKeyShare secret_share, group_key) } }

end node

/-! ## Ordering and hashing

The enum in `src/identity/mod.rs` derives `PartialOrd`/`Ord`/`Hash`:
variants compare by discriminant in declaration order (Node, Client, App)
and, within a variant, by the derived ordering of the variant's fields.
The field orderings live in the `client`/`node`/`app` submodules and are
modelled from the spec: within a variant, comparison is by key bytes. -/

/-- Comparison of two naturals as three-way `Ordering`. -/
def natCmp (a b : Nat) : Ordering :=
  if a < b then .lt else if a = b then .eq else .gt

/-- Lexicographic comparison of byte strings (the derived `Ord` of a
byte vector). -/
def bytesCmp : List Nat → List Nat → Ordering
  | [], [] => .eq
  | [], _ :: _ => .lt
  | _ :: _, [] => .gt
  | a :: as, b :: bs =>
    match natCmp a b with
    | .eq => bytesCmp as bs
    | o => o

/-- Derived ordering of an optional value: `None < Some`. -/
def optionCmp {α : Type} (cmp : α → α → Ordering) :
    Option α → Option α → Ordering
  | none, none => .eq
  | none, some _ => .lt
  | some _, none => .gt
  | some a, some b => cmp a b

/-- Derived ordering of the BLS component (share, then group key). -/
def blsCmp (a b : List Nat × List Nat) : Ordering :=
  match bytesCmp a.1 b.1 with
  | .eq => bytesCmp a.2 b.2
  | o => o

/-- Modelled from the spec: the derived ordering of `client::PublicId`. -/
def clientCmp (a b : client.PublicId) : Ordering :=
  bytesCmp a.public_key b.public_key

/-- Modelled from the spec: the derived ordering of `node::PublicId`. -/
def nodeCmp (a b : node.PublicId) : Ordering :=
  match bytesCmp a.public_key b.public_key with
  | .eq => optionCmp blsCmp a.bls_keys b.bls_keys
  | o => o

/-- Modelled from the spec: the derived ordering of `app::PublicId`. -/
def appCmp (a b : app.PublicId) : Ordering :=
  match bytesCmp a.public_key b.public_key with
  | .eq => clientCmp a.owner b.owner
  | o => o

/-- The derived `Ord` of the `PublicId` enum: discriminant first, in
declaration order (Node, Client, App), then the variant's fields. -/
def PublicId.cmp : PublicId → PublicId → Ordering
  | .Node a, .Node b => nodeCmp a b
  | .Node _, .Client _ => .lt
  | .Node _, .App _ => .lt
  | .Client _, .Node _ => .gt
  | .Client a, .Client b => clientCmp a b
  | .Client _, .App _ => .lt
  | .App _, .Node _ => .gt
  | .App _, .Client _ => .gt
  | .App a, .App b => appCmp a b

/-- The derived `Hash` of the enum, modelled as a deterministic fold of
the canonical bytes (equality-respecting, as any pure function is). -/
def hashPublicId (p : PublicId) : Nat :=
  (serialisePublicId p).foldl (fun acc b => acc * 257 + b + 1) 5381

theorem natCmp_eq_iff (a b : Nat) : natCmp a b = .eq ↔ a = b := by
  unfold natCmp
  split_ifs with h1 h2
  · simp; omega
  · simp [h2]
  · simp; omega

theorem bytesCmp_eq_iff (xs ys : List Nat) : bytesCmp xs ys = .eq ↔ xs = ys := by
  induction xs generalizing ys with
  | nil => cases ys <;> simp [bytesCmp]
  | cons a as ih =>
    cases ys with
    | nil => simp [bytesCmp]
    | cons b bs =>
      simp only [bytesCmp]
      cases h : natCmp a b with
      | eq =>
        have hab : a = b := (natCmp_eq_iff a b).mp h
        simp [hab, ih]
      | lt =>
        have hab : a ≠ b := fun he => by
          rw [(natCmp_eq_iff a b).mpr he] at h; cases h
        simp [hab]
      | gt =>
        have hab : a ≠ b := fun he => by
          rw [(natCmp_eq_iff a b).mpr he] at h; cases h
        simp [hab]

theorem optionCmp_eq_iff {α : Type} (cmp : α → α → Ordering)
    (hcmp : ∀ a b, cmp a b = .eq ↔ a = b) (x y : Option α) :
    optionCmp cmp x y = .eq ↔ x = y := by
  cases x <;> cases y <;> simp [optionCmp, hcmp]

theorem blsCmp_eq_iff (a b : List Nat × List Nat) :
    blsCmp a b = .eq ↔ a = b := by
  obtain ⟨a1, a2⟩ := a
  obtain ⟨b1, b2⟩ := b
  simp only [blsCmp]
  cases h : bytesCmp a1 b1 with
  | eq =>
    have h1 : a1 = b1 := (bytesCmp_eq_iff a1 b1).mp h
    simp [h1, bytesCmp_eq_iff]
  | lt =>
    have h1 : a1 ≠ b1 := fun he => by
      rw [(bytesCmp_eq_iff a1 b1).mpr he] at h; cases h
    simp [h1]
  | gt =>
    have h1 : a1 ≠ b1 := fun he => by
      rw [(bytesCmp_eq_iff a1 b1).mpr he] at h; cases h
    simp [h1]

theorem clientCmp_eq_iff (a b : client.PublicId) :
    clientCmp a b = .eq ↔ a = b := by
  obtain ⟨ak⟩ := a
  obtain ⟨bk⟩ := b
  simp [clientCmp, bytesCmp_eq_iff]

theorem nodeCmp_eq_iff (a b : node.PublicId) : nodeCmp a b = .eq ↔ a = b := by
  obtain ⟨ak, abls⟩ := a
  obtain ⟨bk, bbls⟩ := b
  simp only [nodeCmp]
  cases h : bytesCmp ak bk with
  | eq =>
    have h1 : ak = bk := (bytesCmp_eq_iff ak bk).mp h
    simp [h1, optionCmp_eq_iff blsCmp blsCmp_eq_iff]
  | lt =>
    have h1 : ak ≠ bk := fun he => by
      rw [(bytesCmp_eq_iff ak bk).mpr he] at h; cases h
    simp [h1]
  | gt =>
    have h1 : ak ≠ bk := fun he => by
      rw [(bytesCmp_eq_iff ak bk).mpr he] at h; cases h
    simp [h1]

theorem appCmp_eq_iff (a b : app.PublicId) : appCmp a b = .eq ↔ a = b := by
  obtain ⟨ak, ao⟩ := a
  obtain ⟨bk, bo⟩ := b
  simp only [appCmp]
  cases h : bytesCmp ak bk with
  | eq =>
    have h1 : ak = bk := (bytesCmp_eq_iff ak bk).mp h
    simp [h1, clientCmp_eq_iff]
  | lt =>
    have h1 : ak ≠ bk := fun he => by
      rw [(bytesCmp_eq_iff ak bk).mpr he] at h; cases h
    simp [h1]
  | gt =>
    have h1 : ak ≠ bk := fun he => by
      rw [(bytesCmp_eq_iff ak bk).mpr he] at h; cases h
    simp [h1]

theorem publicIdCmp_eq_iff (a b : PublicId) : PublicId.cmp a b = .eq ↔ a = b := by
  cases a <;> cases b <;>
    simp [PublicId.cmp, nodeCmp_eq_iff, clientCmp_eq_iff, appCmp_eq_iff]

/-! ## Sample identities and inputs (used by the witnesses) -/

def sampleClient : client.PublicId := ⟨List.replicate 32 1⟩

def sampleNode : node.PublicId := ⟨List.replicate 32 2, none⟩

def sampleNodeWithBls : node.PublicId :=
  ⟨List.replicate 32 2, some (List.replicate 48 3, List.replicate 48 4)⟩

def sampleApp : app.PublicId := ⟨List.replicate 32 5, sampleClient⟩

def sampleNodeFullId : node.FullId := ⟨List.replicate 32 6, none, sampleNode⟩

def sampleNodeFullIdWithBls : node.FullId :=
  ⟨List.replicate 32 6, some (List.replicate 32 7), sampleNodeWithBls⟩

def sampleShare : List Nat := List.replicate 32 8

def sampleGroupKey : List Nat := List.replicate 48 9

/-- `sampleNodeFullId` after a successful share installation. -/
def sampleNodeFullIdAfter : node.FullId :=
  ⟨List.replicate 32 6, some sampleShare,
   ⟨List.replicate 32 2, some (blsPublicKeyShare sampleShare, sampleGroupKey)⟩⟩

/-- The first malformed test input of the source's tests. -/
def badText1 : String :=
  String.mk ['s', 'd', 'k', 'j', 'f', '8', '3', '2', '9', '3', '9', 'f', 'j', 's']

/-- The second malformed test input of the source's tests. -/
def badText2 : String := String.mk ['7', 'd', 'j', 's', 'k', '3', '8']

/-- The third malformed test input of the source's tests. -/
def badText3 : String := String.mk ['7', 'o', 'd', '8', 'f', 'h', '2']

/-! ## The claims -/

/-- C1: for every well-formed PublicId (Node, Client or App), decoding the
z-base-32 encoding with the matching expected variant returns a value
structurally equal to the original identity. -/
theorem safend_C1 :
    (∀ c : client.PublicId, wfClient c →
      client.PublicId.decode_from_zbase32 (client.PublicId.encode_to_zbase32 c) =
        .ok c) ∧
    (∀ n : node.PublicId, wfNode n →
      node.PublicId.decode_from_zbase32 (node.PublicId.encode_to_zbase32 n) =
        .ok n) ∧
    (∀ a : app.PublicId, wfApp a →
      app.PublicId.decode_from_zbase32 (app.PublicId.encode_to_zbase32 a) =
        .ok a) := by
  refine ⟨fun c hc => ?_, fun n hn => ?_, fun a ha => ?_⟩
  · unfold client.PublicId.decode_from_zbase32 client.PublicId.encode_to_zbase32
    rw [decode_encode_enum (PublicId.Client c) hc]
  · unfold node.PublicId.decode_from_zbase32 node.PublicId.encode_to_zbase32
    rw [decode_encode_enum (PublicId.Node n) hn]
  · unfold app.PublicId.decode_from_zbase32 app.PublicId.encode_to_zbase32
    rw [decode_encode_enum (PublicId.App a) ha]

/-- Witness for C1 at concrete Client, Node (with installed share) and App
identities. -/
theorem safend_C1_witness :
    client.PublicId.decode_from_zbase32
        (client.PublicId.encode_to_zbase32 sampleClient) = .ok sampleClient ∧
    node.PublicId.decode_from_zbase32
        (node.PublicId.encode_to_zbase32 sampleNodeWithBls) = .ok sampleNodeWithBls ∧
    app.PublicId.decode_from_zbase32
        (app.PublicId.encode_to_zbase32 sampleApp) = .ok sampleApp :=
  ⟨safend_C1.1 sampleClient (by decide),
   safend_C1.2.1 sampleNodeWithBls (by decide),
   safend_C1.2.2 sampleApp (by decide)⟩

/-- C2: decoding a well-formed encoded identity of one concrete variant
while expecting a different concrete variant fails with
`VariantMismatch` instead of returning a value or coercing. -/
theorem safend_C2 :
    (∀ c : client.PublicId, wfClient c →
      node.PublicId.decode_from_zbase32 (client.PublicId.encode_to_zbase32 c) =
          .error .VariantMismatch ∧
        app.PublicId.decode_from_zbase32 (client.PublicId.encode_to_zbase32 c) =
          .error .VariantMismatch) ∧
    (∀ n : node.PublicId, wfNode n →
      client.PublicId.decode_from_zbase32 (node.PublicId.encode_to_zbase32 n) =
          .error .VariantMismatch ∧
        app.PublicId.decode_from_zbase32 (node.PublicId.encode_to_zbase32 n) =
          .error .VariantMismatch) ∧
    (∀ a : app.PublicId, wfApp a →
      client.PublicId.decode_from_zbase32 (app.PublicId.encode_to_zbase32 a) =
          .error .VariantMismatch ∧
        node.PublicId.decode_from_zbase32 (app.PublicId.encode_to_zbase32 a) =
          .error .VariantMismatch) := by
  refine ⟨fun c hc => ⟨?_, ?_⟩, fun n hn => ⟨?_, ?_⟩, fun a ha => ⟨?_, ?_⟩⟩
  · unfold node.PublicId.decode_from_zbase32 client.PublicId.encode_to_zbase32
    rw [decode_encode_enum (PublicId.Client c) hc]
  · unfold app.PublicId.decode_from_zbase32 client.PublicId.encode_to_zbase32
    rw [decode_encode_enum (PublicId.Client c) hc]
  · unfold client.PublicId.decode_from_zbase32 node.PublicId.encode_to_zbase32
    rw [decode_encode_enum (PublicId.Node n) hn]
  · unfold app.PublicId.decode_from_zbase32 node.PublicId.encode_to_zbase32
    rw [decode_encode_enum (PublicId.Node n) hn]
  · unfold client.PublicId.decode_from_zbase32 app.PublicId.encode_to_zbase32
    rw [decode_encode_enum (PublicId.App a) ha]
  · unfold node.PublicId.decode_from_zbase32 app.PublicId.encode_to_zbase32
    rw [decode_encode_enum (PublicId.App a) ha]

/-- Witness for C2: concrete cross-variant decodes all yield
`VariantMismatch`. -/
theorem safend_C2_witness :
    node.PublicId.decode_from_zbase32
        (client.PublicId.encode_to_zbase32 sampleClient) =
      .error .VariantMismatch ∧
    client.PublicId.decode_from_zbase32
        (node.PublicId.encode_to_zbase32 sampleNode) =
      .error .VariantMismatch ∧
    client.PublicId.decode_from_zbase32
        (app.PublicId.encode_to_zbase32 sampleApp) =
      .error .VariantMismatch :=
  ⟨(safend_C2.1 sampleClient (by decide)).1,
   (safend_C2.2.1 sampleNode (by decide)).1,
   (safend_C2.2.2 sampleApp (by decide)).1⟩

/-- C3: an App identity's name is its stored owner's address, for every
value of the App's own key material — never an address derived from the
App's own key. -/
theorem safend_C3 :
    (∀ a : app.PublicId, (PublicId.App a).name = a.owner.name) ∧
    (∀ (own_key alt_key : List Nat) (owner : client.PublicId),
      (PublicId.App ⟨own_key, owner⟩).name = (PublicId.App ⟨alt_key, owner⟩).name) ∧
    (∀ (own_key : List Nat) (owner : client.PublicId),
      (PublicId.App ⟨own_key, owner⟩).name = (PublicId.Client owner).name) :=
  ⟨fun _ => rfl, fun _ _ _ => rfl, fun _ _ => rfl⟩

/-- C4: a successful threshold-share installation leaves the Node's
address — and the key field the address is derived from — unchanged. -/
theorem safend_C4 :
    ∀ (f f' : node.FullId) (secret_share group_key : List Nat),
      f.set_bls_keys secret_share group_key = .ok f' →
      f'.public_id.name = f.public_id.name ∧
        f'.public_id.public_key = f.public_id.public_key := by
  intro f f' s g h
  unfold node.FullId.set_bls_keys at h
  cases hb : f.pub.bls_keys with
  | some x => rw [hb] at h; cases h
  | none =>
    rw [hb] at h
    simp only [Except.ok.injEq] at h
    subst h
    exact ⟨rfl, rfl⟩

/-- Witness for C4 at a concrete Node full identity without a share. -/
theorem safend_C4_witness :
    sampleNodeFullIdAfter.public_id.name = sampleNodeFullId.public_id.name ∧
      sampleNodeFullIdAfter.public_id.public_key =
        sampleNodeFullId.public_id.public_key :=
  safend_C4 sampleNodeFullId sampleNodeFullIdAfter sampleShare sampleGroupKey
    (by rfl)

/-- C5: installing a threshold key share on a Node identity that already
has one fails with `CapabilityAlreadyInstalled` instead of silently
overwriting the installed capability. -/
theorem safend_C5 :
    ∀ (f : node.FullId) (installed : List Nat × List Nat)
      (secret_share group_key : List Nat),
      f.pub.bls_keys = some installed →
      f.set_bls_keys secret_share group_key =
        .error .CapabilityAlreadyInstalled := by
  intro f x s g h
  unfold node.FullId.set_bls_keys
  rw [h]

/-- Witness for C5 at a concrete Node full identity with an installed
share. -/
theorem safend_C5_witness :
    sampleNodeFullIdWithBls.set_bls_keys sampleShare sampleGroupKey =
      .error .CapabilityAlreadyInstalled :=
  safend_C5 sampleNodeFullIdWithBls
    (List.replicate 48 3, List.replicate 48 4) sampleShare sampleGroupKey
    (by rfl)

/-- C6: an input string that is not a valid encoding of any identity is
rejected by every decode operation with `InvalidEncoding` or `Malformed`
(the model is a total function, so no panic is possible), and no value is
ever returned for it. -/
theorem safend_C6 :
    ∀ s : String,
      (zbDecodeChars s.data).bind deserialisePublicId = none →
      (PublicId.decode_from_zbase32 s = .error .InvalidEncoding ∨
        PublicId.decode_from_zbase32 s = .error .Malformed) ∧
      (client.PublicId.decode_from_zbase32 s = .error .InvalidEncoding ∨
        client.PublicId.decode_from_zbase32 s = .error .Malformed) ∧
      (node.PublicId.decode_from_zbase32 s = .error .InvalidEncoding ∨
        node.PublicId.decode_from_zbase32 s = .error .Malformed) ∧
      (app.PublicId.decode_from_zbase32 s = .error .InvalidEncoding ∨
        app.PublicId.decode_from_zbase32 s = .error .Malformed) := by
  intro s h
  rcases hz : zbDecodeChars s.data with _ | bytes
  · have he : PublicId.decode_from_zbase32 s = .error .InvalidEncoding := by
      unfold PublicId.decode_from_zbase32
      rw [hz]
    exact ⟨Or.inl he,
      Or.inl (by unfold client.PublicId.decode_from_zbase32; rw [he]),
      Or.inl (by unfold node.PublicId.decode_from_zbase32; rw [he]),
      Or.inl (by unfold app.PublicId.decode_from_zbase32; rw [he])⟩
  · rw [hz] at h
    simp only [Option.some_bind] at h
    have he : PublicId.decode_from_zbase32 s = .error .Malformed := by
      unfold PublicId.decode_from_zbase32
      rw [hz]
      simp [h]
    exact ⟨Or.inr he,
      Or.inr (by unfold client.PublicId.decode_from_zbase32; rw [he]),
      Or.inr (by unfold node.PublicId.decode_from_zbase32; rw [he]),
      Or.inr (by unfold app.PublicId.decode_from_zbase32; rw [he])⟩

/-- Witness for C6 at the three concrete malformed inputs of the source's
tests. -/
theorem safend_C6_witness :
    (client.PublicId.decode_from_zbase32 badText1 = .error .InvalidEncoding ∨
      client.PublicId.decode_from_zbase32 badText1 = .error .Malformed) ∧
    (node.PublicId.decode_from_zbase32 badText2 = .error .InvalidEncoding ∨
      node.PublicId.decode_from_zbase32 badText2 = .error .Malformed) ∧
    (app.PublicId.decode_from_zbase32 badText3 = .error .InvalidEncoding ∨
      app.PublicId.decode_from_zbase32 badText3 = .error .Malformed) :=
  ⟨(safend_C6 badText1 (by decide)).2.1,
   (safend_C6 badText2 (by decide)).2.2.1,
   (safend_C6 badText3 (by decide)).2.2.2⟩

/-- C7: the derived order on `PublicId` is total across variants — for any
two identities exactly one of `<`, `==`, `>` holds; equality holds iff
the variant and all field values agree (structural equality); and equal
identities hash identically. -/
theorem safend_C7 :
    ∀ a b : PublicId,
      (PublicId.cmp a b = .eq ↔ a = b) ∧
      ((PublicId.cmp a b = .lt ∧ a ≠ b ∧ PublicId.cmp a b ≠ .gt) ∨
        (a = b ∧ PublicId.cmp a b ≠ .lt ∧ PublicId.cmp a b ≠ .gt) ∨
        (PublicId.cmp a b = .gt ∧ a ≠ b ∧ PublicId.cmp a b ≠ .lt)) ∧
      (a = b → hashPublicId a = hashPublicId b) := by
  intro a b
  have hiff := publicIdCmp_eq_iff a b
  refine ⟨hiff, ?_, fun h => by rw [h]⟩
  rcases h : PublicId.cmp a b with _ | _ | _
  · refine Or.inl ⟨rfl, fun he => ?_, by decide⟩
    have h2 := hiff.mpr he
    rw [h] at h2
    exact Ordering.noConfusion h2
  · exact Or.inr (Or.inl ⟨hiff.mp h, by decide, by decide⟩)
  · refine Or.inr (Or.inr ⟨rfl, fun he => ?_, by decide⟩)
    have h2 := hiff.mpr he
    rw [h] at h2
    exact Ordering.noConfusion h2

/-- Witness for C7: the hash-consistency implication discharged at a
concrete identity. -/
theorem safend_C7_witness :
    hashPublicId (PublicId.Client sampleClient) =
      hashPublicId (PublicId.Client sampleClient) :=
  (safend_C7 (PublicId.Client sampleClient) (PublicId.Client sampleClient)).2.2 rfl

/-- C8: `derive_address` is deterministic on the serialized key bytes, and
a Node's or Client's name is exactly `derive_address` of its single-key
public key. -/
theorem safend_C8 :
    (∀ k1 k2 : List Nat, k1 = k2 → derive_address k1 = derive_address k2) ∧
    (∀ n : node.PublicId, (PublicId.Node n).name = derive_address n.public_key) ∧
    (∀ c : client.PublicId,
      (PublicId.Client c).name = derive_address c.public_key) :=
  ⟨fun _ _ h => by rw [h], fun _ => rfl, fun _ => rfl⟩

/-- Witness for C8: the determinism implication discharged at concrete
key bytes. -/
theorem safend_C8_witness :
    derive_address (List.replicate 32 1) = derive_address (List.replicate 32 1) ∧
      (PublicId.Node sampleNode).name = derive_address sampleNode.public_key :=
  ⟨safend_C8.1 (List.replicate 32 1) (List.replicate 32 1) rfl,
   safend_C8.2.1 sampleNode⟩

/-- C9: the untyped enum-level decode accepts every concrete variant — for
every well-formed identity of any variant, decoding its encoding at the
enum level returns it unchanged, with no expected-variant restriction. -/
theorem safend_C9 :
    ∀ p : PublicId, wfPublicId p →
      PublicId.decode_from_zbase32 p.encode_to_zbase32 = .ok p :=
  fun p h => decode_encode_enum p h

/-- Witness for C9 at a concrete Node, Client and App identity. -/
theorem safend_C9_witness :
    PublicId.decode_from_zbase32 (PublicId.Node sampleNodeWithBls).encode_to_zbase32 =
        .ok (PublicId.Node sampleNodeWithBls) ∧
      PublicId.decode_from_zbase32 (PublicId.Client sampleClient).encode_to_zbase32 =
        .ok (PublicId.Client sampleClient) ∧
      PublicId.decode_from_zbase32 (PublicId.App sampleApp).encode_to_zbase32 =
        .ok (PublicId.App sampleApp) :=
  ⟨safend_C9 (PublicId.Node sampleNodeWithBls) (by decide),
   safend_C9 (PublicId.Client sampleClient) (by decide),
   safend_C9 (PublicId.App sampleApp) (by decide)⟩

/-- C10: the total order on `PublicId` compares the variant discriminant
first, in declaration order — every Node sorts before every Client, and
every Client before every App, whatever key material each carries. -/
theorem safend_C10 :
    ∀ (n : node.PublicId) (c : client.PublicId) (a : app.PublicId),
      PublicId.cmp (.Node n) (.Client c) = .lt ∧
      PublicId.cmp (.Node n) (.App a) = .lt ∧
      PublicId.cmp (.Client c) (.App a) = .lt ∧
      PublicId.cmp (.Client c) (.Node n) = .gt ∧
      PublicId.cmp (.App a) (.Node n) = .gt ∧
      PublicId.cmp (.App a) (.Client c) = .gt :=
  fun _ _ _ => ⟨rfl, rfl, rfl, rfl, rfl, rfl⟩

end SafeNd
